import Mathlib

/-!
Shallow embedding of the text-formatting core of `src/app.py`
(class `TextFormatter` and the `/format` endpoint).

Modelling conventions:
* Python strings are modelled as `List Char`; Python `int` as `Int`
  (Python integers are unbounded).
* Whitespace is restricted to the ASCII whitespace characters recognised
  by Python's `str.split`, `str.strip`, `str.splitlines` and the regex
  class lying between backslash and s: space, tab, and the four control
  characters with codes 10 to 13.  (The full Unicode whitespace table is
  out of scope of this character model.)
* Python floor division by the positive divisor `gaps` coincides with
  Lean's Euclidean `Int` division, which `/` and the percent operator
  denote on `Int`.
* `" " * n` for a possibly negative `n` yields the empty string in
  Python; this is `List.replicate (Int.toNat n)` since `Int.toNat`
  clamps negatives to zero.
-/

namespace TextFormatter

/-- ASCII whitespace, as recognised by Python's `str.split` and friends:
space (32), tab (9), and the control characters 10..13. -/
def isSpace (c : Char) : Bool :=
  c.toNat = 32 || c.toNat = 9 || (10 ≤ c.toNat && c.toNat ≤ 13)

/-- Python `s.split()` (no separator argument): the maximal runs of
non-whitespace characters, with empty pieces dropped. -/
def splitWords : List Char → List (List Char)
  | [] => []
  | [c] => if isSpace c then [] else [[c]]
  | c :: d :: cs =>
    if isSpace c then splitWords (d :: cs)
    else if isSpace d then [c] :: splitWords (d :: cs)
    else
      match splitWords (d :: cs) with
      | [] => [[c]]
      | w :: ws => (c :: w) :: ws

/-- Python `sep.join(pieces)`. -/
def joinSep (sep : List Char) : List (List Char) → List Char
  | [] => []
  | [l] => l
  | l :: x :: ls => l ++ sep ++ joinSep sep (x :: ls)

/-- Python `" ".join(words)`. -/
def joinSpaces (ws : List (List Char)) : List Char :=
  joinSep [' '] ws

/-- Python `text.strip()`: remove leading and trailing whitespace. -/
def strip (s : List Char) : List Char :=
  ((s.dropWhile isSpace).reverse.dropWhile isSpace).reverse

/-- Number of newline characters in a character run. -/
def countNL (run : List Char) : Nat :=
  (run.filter (fun c => c == '\n')).length

/-- The part of a whitespace run before its first newline. -/
def preNL (run : List Char) : List Char :=
  run.takeWhile (fun c => c != '\n')

/-- The part of a whitespace run after its last newline. -/
def postNL (run : List Char) : List Char :=
  (run.reverse.takeWhile (fun c => c != '\n')).reverse

/-- Scanner for the regex split on the pattern newline-whitespace-newline
used by `format_text` (`re.split` with pattern `\n\s*\n`).  It walks the
string keeping the current piece `acc` and the currently open whitespace
run `run`.  A maximal whitespace run containing at least two newlines is
a separator; the greedy match covers the run from its first to its last
newline, so whitespace before the first newline stays with the previous
piece and whitespace after the last newline starts the next piece —
exactly the behaviour of the greedy regex engine on this pattern. -/
def rsGo : List Char → List Char → List Char → List (List Char)
  | [], acc, run =>
    if 2 ≤ countNL run then [acc ++ preNL run, postNL run] else [acc ++ run]
  | c :: cs, acc, run =>
    if isSpace c then rsGo cs acc (run ++ [c])
    else if 2 ≤ countNL run then
      (acc ++ preNL run) :: rsGo cs (postNL run ++ [c]) []
    else rsGo cs (acc ++ run ++ [c]) []

/-- Python `re.split` of the blank-line pattern over a string, as done in
`format_text` (line 232 of `src/app.py`). -/
def reSplitPara (s : List Char) : List (List Char) :=
  rsGo s [] []

/-- Python `formatted.splitlines()` for strings whose only line break
character is the newline: pieces between newlines, with no trailing
empty piece after a final newline. -/
def splitlines : List Char → List (List Char)
  | [] => []
  | c :: cs =>
    if c = '\n' then [] :: splitlines cs
    else
      match splitlines cs with
      | [] => [[c]]
      | l :: ls => (c :: l) :: ls

/-- The greedy loop of `TextFormatter.wrap_paragraph` (lines 116..126 of
`src/app.py`), with the current line kept as its list of words; the
source materialises a line as the single-space join of that list. -/
def wrapLoop (width : Int) :
    List (List Char) → List (List (List Char)) → List (List Char) → Nat →
    List (List (List Char))
  | [], lines, current, _ =>
    if current.isEmpty then lines else lines ++ [current]
  | w :: ws, lines, current, currLen =>
    if currLen = 0 then
      wrapLoop width ws lines (current ++ [w]) w.length
    else if (currLen : Int) + 1 + (w.length : Int) ≤ width then
      wrapLoop width ws lines (current ++ [w]) (currLen + 1 + w.length)
    else
      wrapLoop width ws (lines ++ [current]) [w] w.length

/-- `wrap_paragraph` at the level of word groups. -/
def wrapWords (ws : List (List Char)) (width : Int) : List (List (List Char)) :=
  wrapLoop width ws [] [] 0

/-- `TextFormatter.wrap_paragraph` (lines 89..129 of `src/app.py`). -/
def wrap_paragraph (p : List Char) (width : Int) : List (List Char) :=
  (wrapWords (splitWords p) width).map joinSpaces

/-- The number of spaces the gap after word index `i` receives in
`justify_line`: `base_space + (1 if i < extra else 0)`, clamped at zero
when rendered because Python string repetition by a negative count
yields the empty string. -/
def gapSpaces (base extra : Int) (i : Nat) : Nat :=
  (base + if (i : Int) < extra then 1 else 0).toNat

/-- The rendering loop of `justify_line` (lines 160..166 of
`src/app.py`): every word is emitted, and every word except the last is
followed by its gap's spaces. -/
def justifyJoin (base extra : Int) : List (List Char) → Nat → List Char
  | [], _ => []
  | [w], _ => w
  | w :: x :: ws, i =>
    w ++ List.replicate (gapSpaces base extra i) ' ' ++
      justifyJoin base extra (x :: ws) (i + 1)

/-- `TextFormatter.justify_line` (lines 131..166 of `src/app.py`). -/
def justify_line (words : List (List Char)) (width : Int) : List Char :=
  match words with
  | [] => []
  | [w] => w ++ List.replicate (max 0 (width - (w.length : Int))).toNat ' '
  | w :: x :: ws =>
    let totalWordsLen : Int := (((w :: x :: ws).map List.length).sum : Nat)
    let totalSpaces : Int := width - totalWordsLen
    let gaps : Nat := (w :: x :: ws).length - 1
    justifyJoin (totalSpaces / (gaps : Int)) (totalSpaces % (gaps : Int))
      (w :: x :: ws) 0

/-- The indexed loop of `justify_paragraph` (lines 193..198 of
`src/app.py`): each wrapped line is split back into its words and
justified, except the line at index `total - 1` when
`justify_last_line` is false, which is re-joined with single spaces. -/
def jpLoop (width : Int) (jll : Bool) (total : Nat) :
    Nat → List (List Char) → List (List Char)
  | _, [] => []
  | i, line :: rest =>
    (if i = total - 1 ∧ jll = false then joinSpaces (splitWords line)
     else justify_line (splitWords line) width) ::
      jpLoop width jll total (i + 1) rest

/-- `TextFormatter.justify_paragraph` (lines 168..199 of `src/app.py`). -/
def justify_paragraph (p : List Char) (width : Int) (jll : Bool) :
    List (List Char) :=
  let wrapped := wrap_paragraph p width
  jpLoop width jll wrapped.length 0 wrapped

/-- `TextFormatter.format_text` (lines 201..241 of `src/app.py`), with
the effective width already resolved (the endpoint always passes the
request's width, whose schema default is 40). -/
def format_text (text : List Char) (width : Int) (justify jll : Bool) :
    List Char :=
  let paragraphs := reSplitPara (strip text)
  let formattedParas := paragraphs.map (fun p =>
    let pClean := joinSpaces (splitWords p)
    let lines :=
      if justify then justify_paragraph pClean width jll
      else wrap_paragraph pClean width
    joinSep ['\n'] lines)
  joinSep ['\n', '\n'] formattedParas

/-- The request model of the `/format` endpoint (`FormatRequest`,
lines 40..62 of `src/app.py`). -/
structure FormatRequest where
  text : List Char
  width : Int := 40
  justify : Bool := false
  justify_last_line : Bool := false

/-- The `/format` endpoint body (lines 248..273 of `src/app.py`):
the formatted string together with its `splitlines` decomposition. -/
def format_endpoint (req : FormatRequest) : List Char × List (List Char) :=
  let formatted :=
    format_text req.text req.width req.justify req.justify_last_line
  (formatted, splitlines formatted)

/-- The per-paragraph line blocks produced inside `format_text`, before
lines are joined by newlines: one block per paragraph of the input. -/
def paragraphBlocks (text : List Char) (width : Int) (justify jll : Bool) :
    List (List (List Char)) :=
  (reSplitPara (strip text)).map (fun p =>
    let pClean := joinSpaces (splitWords p)
    if justify then justify_paragraph pClean width jll
    else wrap_paragraph pClean width)

/-- `justify_line` with Python's one fallible operation made explicit:
`divmod(total_spaces, gaps)` raises `ZeroDivisionError` when
`gaps = 0`, modelled by `none`.  Every other operation in the function
is total — in particular repeating a space by a negative count yields
the empty string rather than an error. -/
def justify_lineChecked (words : List (List Char)) (width : Int) :
    Option (List Char) :=
  match words with
  | [] => some []
  | [w] =>
    some (w ++ List.replicate (max 0 (width - (w.length : Int))).toNat ' ')
  | w :: x :: ws =>
    let totalWordsLen : Int := (((w :: x :: ws).map List.length).sum : Nat)
    let totalSpaces : Int := width - totalWordsLen
    let gaps : Nat := (w :: x :: ws).length - 1
    if (gaps : Int) = 0 then none
    else
      some (justifyJoin (totalSpaces / (gaps : Int))
        (totalSpaces % (gaps : Int)) (w :: x :: ws) 0)

/-- `jpLoop` threaded through the checked justifier. -/
def jpLoopChecked (width : Int) (jll : Bool) (total : Nat) :
    Nat → List (List Char) → Option (List (List Char))
  | _, [] => some []
  | i, line :: rest =>
    (if i = total - 1 ∧ jll = false then
        some (joinSpaces (splitWords line))
      else justify_lineChecked (splitWords line) width).bind fun x =>
      (jpLoopChecked width jll total (i + 1) rest).bind fun xs =>
        some (x :: xs)

/-- `justify_paragraph` threaded through the checked justifier. -/
def justify_paragraphChecked (p : List Char) (width : Int) (jll : Bool) :
    Option (List (List Char)) :=
  let wrapped := wrap_paragraph p width
  jpLoopChecked width jll wrapped.length 0 wrapped

/-- `format_text` threaded through the checked justifier: it returns
`none` exactly when some run of the pipeline would raise. -/
def format_textChecked (text : List Char) (width : Int) (justify jll : Bool) :
    Option (List Char) :=
  let paragraphs := reSplitPara (strip text)
  (paragraphs.mapM (fun p =>
    let pClean := joinSpaces (splitWords p)
    (if justify then justify_paragraphChecked pClean width jll
      else some (wrap_paragraph pClean width)).bind fun lines =>
      some (joinSep ['\n'] lines))).map (joinSep ['\n', '\n'])

/-- Words interleaved with explicit per-gap space counts.  This is the
shape the spec describes for a justified line: the words in input order,
the gap after word `i` holding the `i`-th count's spaces. -/
def interGaps : List (List Char) → List Nat → List Char
  | [], _ => []
  | [w], _ => w
  | w :: x :: ws, [] => w ++ interGaps (x :: ws) []
  | w :: x :: ws, g :: gs => w ++ List.replicate g ' ' ++ interGaps (x :: ws) gs

/-- No two adjacent whitespace characters.  Wrap-only output satisfies
this, which is why re-splitting it finds no blank-line separator. -/
def noDoubleSpace (s : List Char) : Prop :=
  List.Chain' (fun a b => ¬(isSpace a = true ∧ isSpace b = true)) s

end TextFormatter

namespace TextFormatter

theorem splitWords_space_cons {c : Char} (h : isSpace c = true)
    (l : List Char) : splitWords (c :: l) = splitWords l := by
  cases l with
  | nil => simp [splitWords, h]
  | cons d ds => simp [splitWords, h]

theorem splitWords_ne_nil {c : Char} (hc : isSpace c = false)
    (l : List Char) : splitWords (c :: l) ≠ [] := by
  cases l with
  | nil => simp [splitWords, hc]
  | cons d ds =>
    by_cases hd : isSpace d
    · simp [splitWords, hc, hd]
    · simp only [splitWords, hc, hd]
      cases splitWords (d :: ds) <;> simp

theorem splitWords_sanitary :
    ∀ s : List Char, ∀ w ∈ splitWords s,
      w ≠ [] ∧ ∀ c ∈ w, isSpace c = false := by
  intro s
  induction s using splitWords.induct with
  | case1 => simp [splitWords]
  | case2 c hc => simp [splitWords, hc]
  | case3 c hc =>
    simp only [Bool.not_eq_true] at hc
    intro w hw
    simp [splitWords, hc] at hw
    subst hw
    refine ⟨by simp, ?_⟩
    intro a ha
    simp at ha
    subst ha
    exact hc
  | case4 c d cs hc ih =>
    intro w hw
    rw [splitWords_space_cons hc] at hw
    exact ih w hw
  | case5 c d cs hc hd ih =>
    simp only [Bool.not_eq_true] at hc
    intro w hw
    simp only [splitWords, hc, hd, Bool.false_eq_true, if_false, if_true,
      List.mem_cons] at hw
    rcases hw with rfl | hw
    · exact ⟨by simp, by intro a ha; simp at ha; subst ha; exact hc⟩
    · exact ih w hw
  | case6 c d cs hc hd hnil ih =>
    simp only [Bool.not_eq_true] at hc hd
    intro w hw
    simp only [splitWords, hc, hd, Bool.false_eq_true, if_false, hnil,
      List.mem_singleton] at hw
    subst hw
    exact ⟨by simp, by intro a ha; simp at ha; subst ha; exact hc⟩
  | case7 c d cs hc hd w0 ws0 heq ih =>
    simp only [Bool.not_eq_true] at hc hd
    intro w hw
    simp only [splitWords, hc, hd, Bool.false_eq_true, if_false, heq,
      List.mem_cons] at hw
    rcases hw with rfl | hw
    · have h0 := ih w0 (by rw [heq]; simp)
      refine ⟨by simp, ?_⟩
      intro a ha
      rcases List.mem_cons.mp ha with rfl | ha
      · exact hc
      · exact h0.2 a ha
    · exact ih w (by rw [heq]; simp [hw])

end TextFormatter

namespace TextFormatter

theorem splitWords_word_append (w : List Char) :
    ∀ s : List Char, w ≠ [] → (∀ c ∈ w, isSpace c = false) →
    (s = [] ∨ ∃ d ds, s = d :: ds ∧ isSpace d = true) →
    splitWords (w ++ s) = w :: splitWords s := by
  induction w with
  | nil => intro s h; exact absurd rfl h
  | cons a w' ih =>
    intro s _ hsan hs
    have ha : isSpace a = false := hsan a (by simp)
    cases w' with
    | nil =>
      rcases hs with rfl | ⟨d, ds, rfl, hd⟩
      · simp [splitWords, ha]
      · simp [splitWords, ha, hd, splitWords_space_cons hd]
    | cons b w'' =>
      have hb : isSpace b = false := hsan b (by simp)
      have hrec : splitWords ((b :: w'') ++ s) = (b :: w'') :: splitWords s :=
        ih s (by simp) (fun c hc => hsan c (List.mem_cons_of_mem _ hc)) hs
      have hrec' : splitWords (b :: (w'' ++ s)) = (b :: w'') :: splitWords s := by
        simpa using hrec
      simp [splitWords, ha, hb, hrec']

theorem splitWords_joinSpaces :
    ∀ ws : List (List Char),
    (∀ w ∈ ws, w ≠ [] ∧ ∀ c ∈ w, isSpace c = false) →
    splitWords (joinSpaces ws) = ws := by
  intro ws
  induction ws with
  | nil => intro _; simp [joinSpaces, joinSep, splitWords]
  | cons w ws' ih =>
    intro hsan
    have hw := hsan w (by simp)
    cases ws' with
    | nil =>
      have := splitWords_word_append w [] hw.1 hw.2 (Or.inl rfl)
      simpa [joinSpaces, joinSep] using this
    | cons x ls =>
      have hjoin : joinSpaces (w :: x :: ls) = w ++ ' ' :: joinSpaces (x :: ls) := by
        simp [joinSpaces, joinSep]
      have hsp : isSpace ' ' = true := by decide
      rw [hjoin, splitWords_word_append w (' ' :: joinSpaces (x :: ls)) hw.1 hw.2
        (Or.inr ⟨' ', joinSpaces (x :: ls), rfl, hsp⟩)]
      rw [splitWords_space_cons hsp]
      rw [ih (fun v hv => hsan v (List.mem_cons_of_mem _ hv))]

theorem splitWords_append_space {c : Char} (hc : isSpace c = true)
    (b : List Char) :
    ∀ a : List Char, splitWords (a ++ c :: b) = splitWords a ++ splitWords b := by
  intro a
  induction a using splitWords.induct with
  | case1 => simp [splitWords_space_cons hc, splitWords]
  | case2 x hx =>
    simp [List.cons_append, splitWords_space_cons hx,
      splitWords_space_cons hc, splitWords, hx]
  | case3 x hx =>
    simp only [Bool.not_eq_true] at hx
    simp [List.cons_append, splitWords, hx, hc, splitWords_space_cons hc]
  | case4 x d cs hx ih =>
    simp only [List.cons_append] at *
    rw [splitWords_space_cons hx, splitWords_space_cons hx, ih]
  | case5 x d cs hx hd ih =>
    simp only [Bool.not_eq_true] at hx
    simp only [List.cons_append] at *
    rw [show splitWords (x :: d :: (cs ++ c :: b)) =
          [x] :: splitWords (d :: (cs ++ c :: b)) by simp [splitWords, hx, hd],
        show splitWords (x :: d :: cs) = [x] :: splitWords (d :: cs) by
          simp [splitWords, hx, hd],
        ih]
    simp
  | case6 x d cs hx hd hnil ih =>
    simp only [Bool.not_eq_true] at hx hd
    exact absurd hnil (splitWords_ne_nil hd cs)
  | case7 x d cs hx hd w0 ws0 heq ih =>
    simp only [Bool.not_eq_true] at hx hd
    simp only [List.cons_append] at *
    rw [heq] at ih
    have hL : splitWords (x :: d :: (cs ++ c :: b)) =
        (x :: w0) :: (ws0 ++ splitWords b) := by
      simp only [splitWords, hx, hd, Bool.false_eq_true, if_false]
      rw [ih]
      simp
    have hR : splitWords (x :: d :: cs) = (x :: w0) :: ws0 := by
      simp only [splitWords, hx, hd, Bool.false_eq_true, if_false]
      rw [heq]
    rw [hL, hR]
    simp

end TextFormatter

namespace TextFormatter

theorem joinSep_ne_nil (sep : List Char) (x : List Char)
    (ls : List (List Char)) (hx : x ≠ []) : joinSep sep (x :: ls) ≠ [] := by
  cases ls with
  | nil => simpa [joinSep] using hx
  | cons y ys =>
    simp only [joinSep, ne_eq, List.append_assoc, List.append_eq_nil]
    intro h
    exact hx h.1

theorem joinSep_head? (sep : List Char) (l : List Char)
    (ls : List (List Char)) (hl : l ≠ []) :
    (joinSep sep (l :: ls)).head? = l.head? := by
  cases ls with
  | nil => simp [joinSep]
  | cons y ys =>
    simp only [joinSep, List.append_assoc]
    exact List.head?_append_of_ne_nil l hl

theorem joinSpaces_snoc (c : List (List Char)) (w : List Char) (hc : c ≠ []) :
    joinSpaces (c ++ [w]) = joinSpaces c ++ ' ' :: w := by
  induction c with
  | nil => exact absurd rfl hc
  | cons l ls ih =>
    cases ls with
    | nil => simp [joinSpaces, joinSep]
    | cons x xs =>
      have h2 := ih (by simp)
      calc joinSpaces ((l :: x :: xs) ++ [w])
          = l ++ [' '] ++ joinSpaces ((x :: xs) ++ [w]) := by
            simp [joinSpaces, joinSep]
        _ = l ++ [' '] ++ (joinSpaces (x :: xs) ++ ' ' :: w) := by rw [h2]
        _ = joinSpaces (l :: x :: xs) ++ ' ' :: w := by
            simp [joinSpaces, joinSep]

theorem joinSpaces_cons_length_le (w : List Char) (ls : List (List Char)) :
    w.length ≤ (joinSpaces (w :: ls)).length := by
  cases ls with
  | nil => simp [joinSpaces, joinSep]
  | cons x xs => simp [joinSpaces, joinSep]

theorem joinSep_getLast?_prop (sep : List Char) (P : Char → Prop) :
    ∀ lines : List (List Char), lines ≠ [] → (∀ l ∈ lines, l ≠ []) →
    (∀ l ∈ lines, ∀ c, l.getLast? = some c → P c) →
    ∀ c, (joinSep sep lines).getLast? = some c → P c := by
  intro lines
  induction lines with
  | nil => intro h; exact absurd rfl h
  | cons l ls ih =>
    intro _ hne hprop c hc
    cases ls with
    | nil =>
      simp only [joinSep] at hc
      exact hprop l (by simp) c hc
    | cons x xs =>
      have hJ : joinSep sep (x :: xs) ≠ [] :=
        joinSep_ne_nil sep x xs (hne x (by simp))
      simp only [joinSep, List.append_assoc] at hc
      rw [List.getLast?_append_of_ne_nil _
        (by simp [hJ] : sep ++ joinSep sep (x :: xs) ≠ [])] at hc
      rw [List.getLast?_append_of_ne_nil _ hJ] at hc
      exact ih (by simp) (fun m hm => hne m (List.mem_cons_of_mem _ hm))
        (fun m hm => hprop m (List.mem_cons_of_mem _ hm)) c hc

theorem joinSep_head?_prop (sep : List Char) (P : Char → Prop)
    (lines : List (List Char)) (hne : ∀ l ∈ lines, l ≠ [])
    (hprop : ∀ l ∈ lines, ∀ c, l.head? = some c → P c) :
    ∀ c, (joinSep sep lines).head? = some c → P c := by
  cases lines with
  | nil => intro c hc; simp [joinSep] at hc
  | cons l ls =>
    intro c hc
    rw [joinSep_head? sep l ls (hne l (by simp))] at hc
    exact hprop l (by simp) c hc

end TextFormatter

namespace TextFormatter

theorem wrapLoop_flatten (width : Int) :
    ∀ ws lines current currLen,
    (wrapLoop width ws lines current currLen).flatten =
      lines.flatten ++ current ++ ws := by
  intro ws lines current currLen
  induction ws, lines, current, currLen using wrapLoop.induct width with
  | case1 lines current x hemp =>
    have : current = [] := by simpa [List.isEmpty_iff] using hemp
    subst this
    simp [wrapLoop, hemp]
  | case2 lines current x hemp =>
    simp [wrapLoop, hemp, List.flatten_append]
  | case3 w ws lines current ih =>
    simp only [wrapLoop, if_true, reduceIte]
    rw [ih]
    simp
  | case4 w ws lines current currLen h0 hle ih =>
    simp only [wrapLoop, h0, hle, if_false, if_true, reduceIte, if_pos hle]
    rw [ih]
    simp
  | case5 w ws lines current currLen h0 hle ih =>
    simp only [wrapLoop, h0, if_false, if_neg hle, reduceIte]
    rw [ih]
    simp [List.flatten_append]

theorem wrapLoop_good (width : Int) :
    ∀ ws lines current currLen,
    (∀ w ∈ ws, w ≠ []) → (∀ w ∈ current, w ≠ []) →
    currLen = (joinSpaces current).length →
    (∀ g ∈ lines, g ≠ [] ∧
      (((joinSpaces g).length : Int) ≤ width ∨ ∃ w, g = [w])) →
    (current ≠ [] →
      (((joinSpaces current).length : Int) ≤ width ∨ ∃ w, current = [w])) →
    ∀ g ∈ wrapLoop width ws lines current currLen, g ≠ [] ∧
      (((joinSpaces g).length : Int) ≤ width ∨ ∃ w, g = [w]) := by
  intro ws lines current currLen
  induction ws, lines, current, currLen using wrapLoop.induct width with
  | case1 lines current x hemp =>
    intro _ _ _ hlines _
    simpa [wrapLoop, hemp] using hlines
  | case2 lines current x hemp =>
    intro _ hcur _ hlines hgood
    have hcne : current ≠ [] := by simpa [List.isEmpty_iff] using hemp
    simp only [wrapLoop, hemp, if_false, Bool.false_eq_true, reduceIte]
    intro g hg
    rcases List.mem_append.mp hg with h | h
    · exact hlines g h
    · simp only [List.mem_singleton] at h
      subst h
      exact ⟨hcne, hgood hcne⟩
  | case3 w ws lines current ih =>
    intro hws hcur hlen hlines hgood
    have hcnil : current = [] := by
      cases current with
      | nil => rfl
      | cons a as =>
        exfalso
        have h1 : a.length ≤ (joinSpaces (a :: as)).length :=
          joinSpaces_cons_length_le a as
        have ha : a ≠ [] := hcur a (by simp)
        have h2 : 0 < a.length := List.length_pos.mpr ha
        omega
    subst hcnil
    simp only [wrapLoop, if_true, reduceIte, List.nil_append]
    exact ih (fun v hv => hws v (List.mem_cons_of_mem _ hv))
      (by intro v hv; simp at hv; subst hv
          exact (List.forall_mem_cons.mp hws).1)
      (by simp [joinSpaces, joinSep])
      hlines
      (fun _ => Or.inr ⟨_, rfl⟩)
  | case4 w ws lines current currLen h0 hle ih =>
    intro hws hcur hlen hlines hgood
    have hcne : current ≠ [] := by
      intro h
      subst h
      simp [joinSpaces, joinSep] at hlen
      exact h0 hlen
    have hsnoc := joinSpaces_snoc current w hcne
    have hlen' : currLen + 1 + w.length = (joinSpaces (current ++ [w])).length := by
      rw [hsnoc]
      simp [hlen]
      omega
    simp only [wrapLoop, h0, if_false, if_pos hle, reduceIte]
    refine ih (fun v hv => hws v (List.mem_cons_of_mem _ hv)) ?_ hlen' hlines ?_
    · intro v hv
      rcases List.mem_append.mp hv with h | h
      · exact hcur v h
      · simp only [List.mem_singleton] at h
        subst h
        exact (List.forall_mem_cons.mp hws).1
    · intro _
      left
      rw [← hlen']
      push_cast
      exact_mod_cast hle
  | case5 w ws lines current currLen h0 hle ih =>
    intro hws hcur hlen hlines hgood
    have hcne : current ≠ [] := by
      intro h
      subst h
      simp [joinSpaces, joinSep] at hlen
      exact h0 hlen
    simp only [wrapLoop, h0, if_false, if_neg hle, reduceIte]
    refine ih (fun v hv => hws v (List.mem_cons_of_mem _ hv))
      (by intro v hv; simp at hv; subst hv
          exact (List.forall_mem_cons.mp hws).1)
      (by simp [joinSpaces, joinSep]) ?_ (fun _ => Or.inr ⟨_, rfl⟩)
    intro g hg
    rcases List.mem_append.mp hg with h | h
    · exact hlines g h
    · simp only [List.mem_singleton] at h
      subst h
      exact ⟨hcne, hgood hcne⟩

theorem wrapWords_flatten (ws : List (List Char)) (width : Int) :
    (wrapWords ws width).flatten = ws := by
  have := wrapLoop_flatten width ws [] [] 0
  simpa [wrapWords] using this

theorem wrapWords_good (ws : List (List Char)) (width : Int)
    (h : ∀ w ∈ ws, w ≠ []) :
    ∀ g ∈ wrapWords ws width, g ≠ [] ∧
      (((joinSpaces g).length : Int) ≤ width ∨ ∃ w, g = [w]) :=
  wrapLoop_good width ws [] [] 0 h (by simp)
    (by simp [joinSpaces, joinSep]) (by simp) (by simp)

theorem wrapWords_mem (ws : List (List Char)) (width : Int)
    {g : List (List Char)} (hg : g ∈ wrapWords ws width) :
    ∀ w ∈ g, w ∈ ws := by
  intro w hw
  have : w ∈ (wrapWords ws width).flatten := List.mem_flatten.mpr ⟨g, hg, hw⟩
  rwa [wrapWords_flatten] at this

theorem wrap_paragraph_lines {p : List Char} {width : Int} {line : List Char}
    (h : line ∈ wrap_paragraph p width) :
    ∃ g ∈ wrapWords (splitWords p) width, line = joinSpaces g ∧
      splitWords line = g ∧ g ≠ [] ∧
      ∀ w ∈ g, w ≠ [] ∧ ∀ c ∈ w, isSpace c = false := by
  rcases List.mem_map.mp h with ⟨g, hgmem, rfl⟩
  have hsan : ∀ w ∈ g, w ≠ [] ∧ ∀ c ∈ w, isSpace c = false := fun w hw =>
    splitWords_sanitary p w (wrapWords_mem _ _ hgmem w hw)
  have hgood := wrapWords_good (splitWords p) width
    (fun w hw => (splitWords_sanitary p w hw).1) g hgmem
  exact ⟨g, hgmem, rfl, splitWords_joinSpaces g hsan, hgood.1, hsan⟩

end TextFormatter

namespace TextFormatter

/-- Claim C1: every line returned by `wrap_paragraph` has length at most
`width`, except a line consisting of a single word longer than `width`,
whose length equals that word's length (it overflows by exactly the
word's length minus the width). -/
theorem c1_wrap_width_bound (p : List Char) (width : Int) :
    ∀ line ∈ wrap_paragraph p width,
      ((line.length : Int) ≤ width) ∨
      (∃ w, splitWords line = [w] ∧ line = w ∧ line.length = w.length ∧
        width < (w.length : Int)) := by
  intro line hline
  rcases wrap_paragraph_lines hline with ⟨g, hgmem, hjoin, hsplit, hne, hsan⟩
  have hgood := wrapWords_good (splitWords p) width
    (fun w hw => (splitWords_sanitary p w hw).1) g hgmem
  by_cases hlt : (line.length : Int) ≤ width
  · exact Or.inl hlt
  · right
    rcases hgood.2 with hle | ⟨w, rfl⟩
    · exact absurd (by rw [hjoin]; exact hle) hlt
    · have hline_eq : line = w := by simp [hjoin, joinSpaces, joinSep]
      refine ⟨w, ?_, hline_eq, by rw [hline_eq], ?_⟩
      · rw [hsplit]
      · rw [← hline_eq]
        omega

/-- Witness for claim C1 (and the spec's Scenario 5): the word
"abcdefghij" of length 10 wrapped at width 5 occupies its own line,
whose length is 10, not 5. -/
theorem c1_wrap_width_bound_witness :
    ("abcdefghij".data ∈ wrap_paragraph "abcdefghij".data 5) ∧
    ((("abcdefghij".data.length : Int) ≤ 5) ∨
      (∃ w, splitWords "abcdefghij".data = [w] ∧ "abcdefghij".data = w ∧
        "abcdefghij".data.length = w.length ∧ 5 < (w.length : Int))) :=
  ⟨by decide, c1_wrap_width_bound "abcdefghij".data 5 "abcdefghij".data
    (by decide)⟩

/-- Claim C5: word atomicity — splitting each wrapped line back into
words and concatenating, in order, yields exactly the word sequence of
the input paragraph; no word is split across or within lines. -/
theorem c5_word_atomicity (p : List Char) (width : Int) :
    ((wrap_paragraph p width).map splitWords).flatten = splitWords p := by
  unfold wrap_paragraph
  rw [List.map_map]
  have hcongr : (wrapWords (splitWords p) width).map (splitWords ∘ joinSpaces) =
      (wrapWords (splitWords p) width).map id := by
    apply List.map_congr_left
    intro g hg
    exact splitWords_joinSpaces g
      (fun w hw => splitWords_sanitary p w (wrapWords_mem _ _ hg w hw))
  rw [hcongr, List.map_id, wrapWords_flatten]

end TextFormatter

namespace TextFormatter

theorem justifyJoin_length (base extra : Int) :
    ∀ (ws : List (List Char)) (i : Nat),
    (justifyJoin base extra ws i).length =
      ((ws.map List.length).sum) +
        (((List.range (ws.length - 1)).map
          (fun k => gapSpaces base extra (i + k))).sum) := by
  intro ws
  induction ws with
  | nil => intro i; simp [justifyJoin]
  | cons w rest ih =>
    intro i
    cases rest with
    | nil => simp [justifyJoin]
    | cons x ws' =>
      have hlen : (w :: x :: ws').length - 1 = (x :: ws').length := by simp
      have hlen2 : (x :: ws').length = ((x :: ws').length - 1) + 1 := by simp
      calc (justifyJoin base extra (w :: x :: ws') i).length
          = w.length + gapSpaces base extra i +
            (justifyJoin base extra (x :: ws') (i + 1)).length := by
            simp [justifyJoin]; omega
        _ = w.length + gapSpaces base extra i +
            (((x :: ws').map List.length).sum +
              (((List.range ((x :: ws').length - 1)).map
                (fun k => gapSpaces base extra (i + 1 + k))).sum)) := by
            rw [ih]
        _ = ((w :: x :: ws').map List.length).sum +
            (((List.range ((w :: x :: ws').length - 1)).map
              (fun k => gapSpaces base extra (i + k))).sum) := by
            simp only [List.length_cons, Nat.add_sub_cancel,
              List.range_succ_eq_map, List.map_cons, List.sum_cons,
              List.map_map, Nat.add_zero]
            have hcomp : (fun k => gapSpaces base extra (i + k)) ∘ Nat.succ =
                fun k => gapSpaces base extra (i + 1 + k) := by
              funext k
              simp [Function.comp]
              ring_nf
            rw [hcomp]
            omega

theorem justifyJoin_eq_interGaps (base extra : Int) :
    ∀ (ws : List (List Char)) (i : Nat),
    justifyJoin base extra ws i =
      interGaps ws ((List.range (ws.length - 1)).map
        (fun k => gapSpaces base extra (i + k))) := by
  intro ws
  induction ws with
  | nil => intro i; simp [justifyJoin, interGaps]
  | cons w rest ih =>
    intro i
    cases rest with
    | nil => simp [justifyJoin, interGaps]
    | cons x ws' =>
      have hlen : (w :: x :: ws').length - 1 = ((x :: ws').length - 1) + 1 := by
        simp
      rw [hlen, List.range_succ_eq_map]
      simp only [List.map_cons, List.map_map]
      have hcomp : (fun k => gapSpaces base extra (i + k)) ∘ Nat.succ =
          fun k => gapSpaces base extra (i + 1 + k) := by
        funext k
        simp [Function.comp]
        ring_nf
      rw [hcomp]
      simp only [justifyJoin, interGaps, Nat.add_zero]
      rw [ih (i + 1)]

theorem sum_range_base_indicator (b e : Nat) :
    ∀ g : Nat, ((List.range g).map
      (fun k => b + if k < e then 1 else 0)).sum = g * b + min g e := by
  intro g
  induction g with
  | zero => simp
  | succ n ih =>
    rw [List.range_succ, List.map_append, List.sum_append, ih]
    rw [show (n + 1) * b = n * b + b from by ring]
    by_cases h : n < e
    · simp only [List.map_cons, List.map_nil, List.sum_cons, List.sum_nil,
        if_pos h]
      omega
    · simp only [List.map_cons, List.map_nil, List.sum_cons, List.sum_nil,
        if_neg h]
      omega

end TextFormatter

namespace TextFormatter

theorem gapSpaces_sum (n : Nat) (ts : Int) (h0 : 0 ≤ ts) :
    ((((List.range (n + 1)).map
      (fun k => gapSpaces (ts / ((n + 1 : Nat) : Int))
        (ts % ((n + 1 : Nat) : Int)) k)).sum : Nat) : Int) = ts := by
  set G : Int := ((n + 1 : Nat) : Int) with hG
  have hGpos : 0 < G := by rw [hG]; exact_mod_cast Nat.succ_pos n
  set base := ts / G with hbase
  set extra := ts % G with hextra
  have hb : 0 ≤ base := Int.ediv_nonneg h0 (le_of_lt hGpos)
  have he : 0 ≤ extra := Int.emod_nonneg ts (ne_of_gt hGpos)
  have helt : extra < G := Int.emod_lt_of_pos ts hGpos
  have hdm : G * base + extra = ts := Int.ediv_add_emod ts G
  have hpt : ∀ k ∈ List.range (n + 1), gapSpaces base extra k =
      base.toNat + if k < extra.toNat then 1 else 0 := by
    intro k _
    unfold gapSpaces
    by_cases hk : (k : Int) < extra
    · rw [if_pos hk, if_pos (by omega)]
      omega
    · rw [if_neg hk, if_neg (by omega)]
      omega
  rw [List.map_congr_left hpt, sum_range_base_indicator]
  have hGle : (G : Int) ≤ (n : Int) + 1 := by rw [hG]; push_cast; omega
  have hmin : min (n + 1) extra.toNat = extra.toNat := by omega
  rw [hmin]
  have hbn : ((base.toNat : Nat) : Int) = base := Int.toNat_of_nonneg hb
  have hen : ((extra.toNat : Nat) : Int) = extra := Int.toNat_of_nonneg he
  rw [Nat.cast_add, Nat.cast_mul, hbn, hen]
  exact hdm

/-- Claim C2: for at least two words whose total length fits in the
width, `justify_line` returns a string of length exactly `width`. -/
theorem c2_justify_line_exact (ws : List (List Char)) (width : Int)
    (h2 : 2 ≤ ws.length)
    (h0 : 0 ≤ width - ((ws.map List.length).sum : Int)) :
    ((justify_line ws width).length : Int) = width := by
  cases ws with
  | nil => simp at h2
  | cons w rest =>
  cases rest with
  | nil => simp at h2
  | cons x ws' =>
    have hjl : justify_line (w :: x :: ws') width =
        justifyJoin
          ((width - ((((w :: x :: ws').map List.length).sum : Nat) : Int)) /
            (((w :: x :: ws').length - 1 : Nat) : Int))
          ((width - ((((w :: x :: ws').map List.length).sum : Nat) : Int)) %
            (((w :: x :: ws').length - 1 : Nat) : Int))
          (w :: x :: ws') 0 := rfl
    rw [hjl, justifyJoin_length]
    simp only [List.length_cons, Nat.add_sub_cancel, Nat.zero_add]
    rw [Nat.cast_add]
    rw [gapSpaces_sum ws'.length
      (width - ((((w :: x :: ws').map List.length).sum : Nat) : Int)) (by
        simpa using h0)]
    simp only [List.map_cons, List.sum_cons]
    push_cast
    ring

/-- Witness for claim C2 at words ab, c, d and width 10. -/
theorem c2_justify_line_exact_witness :
    (2 ≤ (["ab".data, "c".data, "d".data] : List (List Char)).length) ∧
    ((0 : Int) ≤ 10 -
      (((["ab".data, "c".data, "d".data].map List.length).sum : Nat) : Int)) ∧
    ((justify_line ["ab".data, "c".data, "d".data] 10).length : Int) = 10 :=
  ⟨by decide, by decide,
    c2_justify_line_exact ["ab".data, "c".data, "d".data] 10
      (by decide) (by decide)⟩

end TextFormatter

namespace TextFormatter

/-- Claim C3: with at least two words, gaps equal to word count minus
one and nonnegative total spaces, `justify_line` gives each of the
`extra` leftmost gaps `base + 1` spaces and every remaining gap `base`
spaces, keeps the words in input order (the output is the words
interleaved with those gaps), and the gap counts sum to the total
space count. -/
theorem c3_gap_distribution (ws : List (List Char)) (width base extra : Int)
    (h2 : 2 ≤ ws.length)
    (h0 : 0 ≤ width - ((ws.map List.length).sum : Int))
    (hbase : base = (width - ((ws.map List.length).sum : Int)) /
      ((ws.length - 1 : Nat) : Int))
    (hextra : extra = (width - ((ws.map List.length).sum : Int)) %
      ((ws.length - 1 : Nat) : Int)) :
    ∃ g : List Nat, g.length = ws.length - 1 ∧
      (∀ i, i < ws.length - 1 →
        ((i : Int) < extra → g[i]? = some (base.toNat + 1)) ∧
        (extra ≤ (i : Int) → g[i]? = some base.toNat)) ∧
      ((g.sum : Nat) : Int) = width - ((ws.map List.length).sum : Int) ∧
      justify_line ws width = interGaps ws g := by
  cases ws with
  | nil => simp at h2
  | cons w rest =>
  cases rest with
  | nil => simp at h2
  | cons x ws' =>
    simp only [List.length_cons, Nat.add_sub_cancel] at hbase hextra ⊢
    refine ⟨(List.range (ws'.length + 1)).map (gapSpaces base extra),
      by simp, ?_, ?_, ?_⟩
    · intro i hi
      have hgi : ((List.range (ws'.length + 1)).map
          (gapSpaces base extra))[i]? = some (gapSpaces base extra i) := by
        rw [List.getElem?_map, List.getElem?_range hi]
        rfl
      have hGpos : (0 : Int) < ((ws'.length + 1 : Nat) : Int) := by
        exact_mod_cast Nat.succ_pos ws'.length
      have hb : 0 ≤ base := by
        rw [hbase]
        exact Int.ediv_nonneg h0 (le_of_lt hGpos)
      constructor
      · intro hlt
        rw [hgi]
        congr 1
        unfold gapSpaces
        rw [if_pos hlt]
        omega
      · intro hge
        rw [hgi]
        congr 1
        unfold gapSpaces
        rw [if_neg (by omega)]
        omega
    · rw [hbase, hextra]
      exact gapSpaces_sum ws'.length _ h0
    · rw [hbase, hextra]
      have hjl : justify_line (w :: x :: ws') width =
          justifyJoin
            ((width - ((((w :: x :: ws').map List.length).sum : Nat) : Int)) /
              (((w :: x :: ws').length - 1 : Nat) : Int))
            ((width - ((((w :: x :: ws').map List.length).sum : Nat) : Int)) %
              (((w :: x :: ws').length - 1 : Nat) : Int))
            (w :: x :: ws') 0 := rfl
      rw [hjl, justifyJoin_eq_interGaps]
      simp only [List.length_cons, Nat.add_sub_cancel, Nat.zero_add]

/-- Witness for claim C3 at words ab, c, d and width 10, where base is
3 and extra is 0: both gaps receive three spaces. -/
theorem c3_gap_distribution_witness :
    ∃ g : List Nat,
      g.length = (["ab".data, "c".data, "d".data] :
        List (List Char)).length - 1 ∧
      (∀ i, i < (["ab".data, "c".data, "d".data] :
          List (List Char)).length - 1 →
        ((i : Int) < 0 → g[i]? = some ((3 : Int).toNat + 1)) ∧
        ((0 : Int) ≤ (i : Int) → g[i]? = some (3 : Int).toNat)) ∧
      ((g.sum : Nat) : Int) = 10 -
        (((["ab".data, "c".data, "d".data].map List.length).sum : Nat) : Int) ∧
      justify_line ["ab".data, "c".data, "d".data] 10 =
        interGaps ["ab".data, "c".data, "d".data] g :=
  c3_gap_distribution ["ab".data, "c".data, "d".data] 10 3 0
    (by decide) (by decide) (by decide) (by decide)

end TextFormatter

namespace TextFormatter

theorem wrap_line_roundtrip {p : List Char} {width : Int} {line : List Char}
    (h : line ∈ wrap_paragraph p width) :
    joinSpaces (splitWords line) = line := by
  rcases wrap_paragraph_lines h with ⟨g, _, hjoin, hsplit, _, _⟩
  rw [hsplit, ← hjoin]

theorem jpLoop_length (width : Int) (jll : Bool) (total : Nat) :
    ∀ (lines : List (List Char)) (i : Nat),
    (jpLoop width jll total i lines).length = lines.length := by
  intro lines
  induction lines with
  | nil => intro i; simp [jpLoop]
  | cons line rest ih => intro i; simp [jpLoop, ih]

theorem jpLoop_getElem? (width : Int) (jll : Bool) (total : Nat) :
    ∀ (lines : List (List Char)) (i k : Nat),
    (jpLoop width jll total i lines)[k]? =
      (lines[k]?).map (fun line =>
        if i + k = total - 1 ∧ jll = false then joinSpaces (splitWords line)
        else justify_line (splitWords line) width) := by
  intro lines
  induction lines with
  | nil => intro i k; simp [jpLoop]
  | cons line rest ih =>
    intro i k
    cases k with
    | zero => simp [jpLoop]
    | succ k' =>
      simp only [jpLoop, List.getElem?_cons_succ]
      rw [ih (i + 1) k']
      have harith : i + 1 + k' = i + (k' + 1) := by omega
      rw [harith]

/-- Claim C4: `justify_paragraph` preserves the number of wrapped
lines, justifies every wrapped line except the last, and justifies the
last wrapped line only when `justify_last_line` is true; otherwise the
last line is returned exactly as wrapped — the plain single-space join
of its words with no trailing padding. -/
theorem c4_last_line_policy (p : List Char) (width : Int) (jll : Bool) :
    (justify_paragraph p width jll).length = (wrap_paragraph p width).length ∧
    ∀ i : Nat, (justify_paragraph p width jll)[i]? =
      ((wrap_paragraph p width)[i]?).map (fun line =>
        if i = (wrap_paragraph p width).length - 1 ∧ jll = false then line
        else justify_line (splitWords line) width) := by
  constructor
  · exact jpLoop_length width jll (wrap_paragraph p width).length
      (wrap_paragraph p width) 0
  · intro i
    have h := jpLoop_getElem? width jll (wrap_paragraph p width).length
      (wrap_paragraph p width) 0 i
    rw [show justify_paragraph p width jll =
      jpLoop width jll (wrap_paragraph p width).length 0
        (wrap_paragraph p width) from rfl, h]
    cases hline : (wrap_paragraph p width)[i]? with
    | none => simp
    | some line =>
      have hmem : line ∈ wrap_paragraph p width := by
        rcases List.getElem?_eq_some.mp hline with ⟨hlt, rfl⟩
        exact List.getElem_mem hlt
      simp only [Option.map_some', Nat.zero_add]
      by_cases hcond : i = (wrap_paragraph p width).length - 1 ∧ jll = false
      · rw [if_pos hcond, if_pos hcond, wrap_line_roundtrip hmem]
      · rw [if_neg hcond, if_neg hcond]

end TextFormatter

namespace TextFormatter

/-- Counterexample to claim C6: at width 7 the justified first line is
"aaa bbb" (its single gap receives exactly one space, total spaces
7 - 6 = 1), not "aaa" followed by four spaces and "bbb", which would be
10 characters long. -/
theorem c6_counterexample :
    splitlines (format_text "aaa bbb ccc ddd".data 7 true false) ≠
      ["aaa    bbb".data, "ccc ddd".data] := by
  decide

/-- Claim C6 as amended: formatting "aaa bbb ccc ddd" with width 7,
justify true and justify_last_line false yields the lines
"aaa bbb" and "ccc ddd" — the first line justified to exactly width 7
with its single gap holding one space, the last line left
unjustified. -/
theorem c6_scenario_amended :
    format_text "aaa bbb ccc ddd".data 7 true false =
      "aaa bbb\nccc ddd".data ∧
    splitlines (format_text "aaa bbb ccc ddd".data 7 true false) =
      ["aaa bbb".data, "ccc ddd".data] := by
  constructor <;> decide

/-- Claim C7: an input consisting only of whitespace (including the
empty string) strips to the empty string, which the splitter turns
into a single empty paragraph; wrapping the empty paragraph gives no
lines, and `format_text` returns the empty string for every width and
flag setting. -/
theorem c7_whitespace_input (text : List Char) (width : Int)
    (justify jll : Bool) (h : ∀ c ∈ text, isSpace c = true) :
    reSplitPara (strip text) = [[]] ∧
    wrap_paragraph [] width = [] ∧
    format_text text width justify jll = [] := by
  have hstrip : strip text = [] := by
    unfold strip
    rw [List.dropWhile_eq_nil_iff.mpr h]
    simp
  refine ⟨by rw [hstrip]; rfl, rfl, ?_⟩
  simp only [format_text]
  rw [hstrip]
  cases justify <;> rfl

/-- Witness for claim C7 at the whitespace input space-newline-space. -/
theorem c7_whitespace_input_witness :
    (∀ c ∈ " \n ".data, isSpace c = true) ∧
    (reSplitPara (strip " \n ".data) = [[]] ∧
      wrap_paragraph [] 40 = [] ∧
      format_text " \n ".data 40 true false = []) :=
  ⟨by decide, c7_whitespace_input " \n ".data 40 true false (by decide)⟩

end TextFormatter

namespace TextFormatter

theorem mapM_option_eq_map {α β : Type} (f : α → Option β) (g : α → β) :
    ∀ l : List α, (∀ a ∈ l, f a = some (g a)) → l.mapM f = some (l.map g) := by
  intro l
  induction l with
  | nil => intro _; rfl
  | cons a as ih =>
    intro h
    rw [List.mapM_cons, h a (by simp), ih (fun b hb => h b (by simp [hb]))]
    rfl

theorem justify_lineChecked_eq (ws : List (List Char)) (width : Int) :
    justify_lineChecked ws width = some (justify_line ws width) := by
  match ws with
  | [] => rfl
  | [w] => rfl
  | w :: x :: ws' =>
    have hgaps : (((w :: x :: ws').length - 1 : Nat) : Int) ≠ 0 := by
      simp only [List.length_cons, Nat.add_sub_cancel]
      exact_mod_cast Nat.succ_ne_zero ws'.length
    simp only [justify_lineChecked, justify_line, if_neg hgaps]

theorem jpLoopChecked_eq (width : Int) (jll : Bool) (total : Nat) :
    ∀ (lines : List (List Char)) (i : Nat),
    jpLoopChecked width jll total i lines =
      some (jpLoop width jll total i lines) := by
  intro lines
  induction lines with
  | nil => intro i; rfl
  | cons line rest ih =>
    intro i
    simp only [jpLoopChecked, jpLoop]
    by_cases hcond : i = total - 1 ∧ jll = false
    · rw [if_pos hcond, if_pos hcond, ih (i + 1)]
      rfl
    · rw [if_neg hcond, if_neg hcond, justify_lineChecked_eq, ih (i + 1)]
      rfl

theorem justify_paragraphChecked_eq (p : List Char) (width : Int)
    (jll : Bool) :
    justify_paragraphChecked p width jll =
      some (justify_paragraph p width jll) :=
  jpLoopChecked_eq width jll (wrap_paragraph p width).length
    (wrap_paragraph p width) 0

theorem justifyJoin_flatten (base extra : Int)
    (h : ∀ k, gapSpaces base extra k = 0) :
    ∀ (ws : List (List Char)) (i : Nat),
    justifyJoin base extra ws i = ws.flatten := by
  intro ws
  induction ws with
  | nil => intro i; rfl
  | cons w rest ih =>
    intro i
    cases rest with
    | nil => simp [justifyJoin]
    | cons x ws' => simp [justifyJoin, h, ih (i + 1)]

/-- Claim C10: the pipeline is total for every string, every integer
width (zero and negative included) and any flags: the checked variant,
which returns none exactly where Python would raise, always returns
the unchecked result — in particular the divisor in `justify_line` is
the positive `gaps` on the branch where the divmod runs.  Moreover a
negative total space count makes every gap empty (Python's negative
string repetition), so an overfull multi-word line is returned as the
bare concatenation of its words. -/
theorem c10_totality :
    (∀ (text : List Char) (width : Int) (justify jll : Bool),
      format_textChecked text width justify jll =
        some (format_text text width justify jll)) ∧
    (∀ (ws : List (List Char)) (width : Int), 2 ≤ ws.length →
      width - ((ws.map List.length).sum : Int) < 0 →
      justify_line ws width = ws.flatten) := by
  constructor
  · intro text width justify jll
    simp only [format_textChecked, format_text]
    rw [mapM_option_eq_map _
      (fun p => joinSep ['\n']
        (if justify then justify_paragraph (joinSpaces (splitWords p)) width jll
         else wrap_paragraph (joinSpaces (splitWords p)) width))]
    · rfl
    · intro p _
      by_cases hj : justify
      · simp only [hj, if_true, justify_paragraphChecked_eq]
        rfl
      · simp only [hj, if_false]
        rfl
  · intro ws width h2 hneg
    match ws, h2 with
    | w :: x :: ws', _ =>
      have hlen : (((w :: x :: ws').length - 1 : Nat) : Int) =
          ((ws'.length + 1 : Nat) : Int) := by
        simp
      set ts : Int :=
        width - ((((w :: x :: ws').map List.length).sum : Nat) : Int) with hts
      have htneg : ts < 0 := hneg
      set G : Int := ((ws'.length + 1 : Nat) : Int) with hG
      have hGpos : 0 < G := by rw [hG]; exact_mod_cast Nat.succ_pos ws'.length
      have hbase : ts / G < 0 := by
        by_contra hge
        push_neg at hge
        have hmod : 0 ≤ ts % G := Int.emod_nonneg ts (ne_of_gt hGpos)
        have hdm : G * (ts / G) + ts % G = ts := Int.ediv_add_emod ts G
        nlinarith
      have hzero : ∀ k, gapSpaces (ts / G) (ts % G) k = 0 := by
        intro k
        unfold gapSpaces
        by_cases hk : (k : Int) < ts % G
        · rw [if_pos hk]; omega
        · rw [if_neg hk]; omega
      have hjl : justify_line (w :: x :: ws') width =
          justifyJoin (ts / (((w :: x :: ws').length - 1 : Nat) : Int))
            (ts % (((w :: x :: ws').length - 1 : Nat) : Int))
            (w :: x :: ws') 0 := rfl
      rw [hjl, hlen]
      exact justifyJoin_flatten (ts / G) (ts % G) hzero (w :: x :: ws') 0

/-- Witness for claim C10: a degenerate request goes through the
checked pipeline, and an overfull two-word line at width 1 is returned
as the concatenation of its words. -/
theorem c10_totality_witness :
    (format_textChecked "a b".data (-3) true true =
      some (format_text "a b".data (-3) true true)) ∧
    (2 ≤ (["ab".data, "cd".data] : List (List Char)).length) ∧
    ((1 : Int) - (((["ab".data, "cd".data].map List.length).sum : Nat) : Int)
      < 0) ∧
    justify_line ["ab".data, "cd".data] 1 =
      (["ab".data, "cd".data] : List (List Char)).flatten :=
  ⟨c10_totality.1 "a b".data (-3) true true, by decide, by decide,
    c10_totality.2 ["ab".data, "cd".data] 1 (by decide) (by decide)⟩

end TextFormatter

namespace TextFormatter

theorem splitlines_ne_nil {s : List Char} (h : s ≠ []) :
    splitlines s ≠ [] := by
  cases s with
  | nil => exact absurd rfl h
  | cons c cs =>
    by_cases hc : c = '\n'
    · simp [splitlines, hc]
    · simp only [splitlines, hc, if_false, reduceIte]
      cases splitlines cs <;> simp

theorem splitlines_cons_nl (cs : List Char) :
    splitlines ('\n' :: cs) = [] :: splitlines cs := by
  simp [splitlines]

theorem splitlines_cons_ne {c : Char} (hc : ¬c = '\n') (cs : List Char) :
    splitlines (c :: cs) =
      match splitlines cs with
      | [] => [[c]]
      | l :: ls => (c :: l) :: ls := by
  simp [splitlines, hc]

theorem splitlines_no_nl :
    ∀ s : List Char, (∀ c ∈ s, c ≠ '\n') → s ≠ [] → splitlines s = [s] := by
  intro s
  induction s with
  | nil => intro _ h; exact absurd rfl h
  | cons c cs ih =>
    intro hno _
    have hc : ¬c = '\n' := hno c (by simp)
    cases cs with
    | nil => simp [splitlines, hc]
    | cons d ds =>
      have hrec : splitlines (d :: ds) = [d :: ds] :=
        ih (fun a ha => hno a (List.mem_cons_of_mem _ ha)) (by simp)
      rw [splitlines_cons_ne hc, hrec]

theorem splitlines_append_nl :
    ∀ (a b : List Char), a ≠ [] →
    (∀ c, a.getLast? = some c → c ≠ '\n') →
    splitlines (a ++ '\n' :: b) = splitlines a ++ splitlines b := by
  intro a
  induction a with
  | nil => intro b h; exact absurd rfl h
  | cons x a' ih =>
    intro b _ hlast
    cases a' with
    | nil =>
      have hx : ¬x = '\n' := hlast x rfl
      simp [splitlines, hx]
    | cons y a'' =>
      have hrec := ih b (by simp)
        (fun c hc => hlast c (by rwa [List.getLast?_cons_cons]))
      by_cases hx : x = '\n'
      · subst hx
        rw [List.cons_append, splitlines_cons_nl, splitlines_cons_nl, hrec]
        simp
      · have hsne' : splitlines (y :: a'') ≠ [] :=
          splitlines_ne_nil (by simp)
        rw [List.cons_append, splitlines_cons_ne hx, splitlines_cons_ne hx,
          hrec]
        cases h1 : splitlines (y :: a'') with
        | nil => exact absurd h1 hsne'
        | cons l ls => simp

theorem mem_joinSep_single (sepc : Char) :
    ∀ (ls : List (List Char)) (c : Char), c ∈ joinSep [sepc] ls →
    c = sepc ∨ ∃ l ∈ ls, c ∈ l := by
  intro ls
  induction ls with
  | nil => intro c hc; simp [joinSep] at hc
  | cons l rest ih =>
    intro c hc
    cases rest with
    | nil =>
      simp only [joinSep] at hc
      exact Or.inr ⟨l, by simp, hc⟩
    | cons x ls' =>
      rw [show joinSep [sepc] (l :: x :: ls') =
        l ++ [sepc] ++ joinSep [sepc] (x :: ls') from rfl] at hc
      simp only [List.mem_append, List.mem_singleton] at hc
      rcases hc with (h | h) | h
      · exact Or.inr ⟨l, by simp, h⟩
      · exact Or.inl h
      · rcases ih c h with h' | ⟨m, hm, hcm⟩
        · exact Or.inl h'
        · exact Or.inr ⟨m, List.mem_cons_of_mem _ hm, hcm⟩

theorem mem_justifyJoin (base extra : Int) :
    ∀ (ws : List (List Char)) (i : Nat) (c : Char),
    c ∈ justifyJoin base extra ws i → c = ' ' ∨ ∃ w ∈ ws, c ∈ w := by
  intro ws
  induction ws with
  | nil => intro i c hc; simp [justifyJoin] at hc
  | cons w rest ih =>
    intro i c hc
    cases rest with
    | nil =>
      simp only [justifyJoin] at hc
      exact Or.inr ⟨w, by simp, hc⟩
    | cons x ws' =>
      simp only [justifyJoin, List.mem_append] at hc
      rcases hc with (h | h) | h
      · exact Or.inr ⟨w, by simp, h⟩
      · exact Or.inl (List.eq_of_mem_replicate h)
      · rcases ih (i + 1) c h with h' | ⟨m, hm, hcm⟩
        · exact Or.inl h'
        · exact Or.inr ⟨m, List.mem_cons_of_mem _ hm, hcm⟩

theorem mem_justify_line (ws : List (List Char)) (width : Int) (c : Char)
    (hc : c ∈ justify_line ws width) : c = ' ' ∨ ∃ w ∈ ws, c ∈ w := by
  match ws with
  | [] => simp [justify_line] at hc
  | [w] =>
    simp only [justify_line, List.mem_append] at hc
    rcases hc with h | h
    · exact Or.inr ⟨w, by simp, h⟩
    · exact Or.inl (List.eq_of_mem_replicate h)
  | w :: x :: ws' =>
    exact mem_justifyJoin _ _ (w :: x :: ws') 0 c hc

theorem justify_line_ne_nil (ws : List (List Char)) (width : Int)
    (hne : ws ≠ []) (hw : ∀ w ∈ ws, w ≠ []) :
    justify_line ws width ≠ [] := by
  match ws with
  | [w] =>
    simp only [justify_line, ne_eq, List.append_eq_nil]
    intro h
    exact hw w (by simp) h.1
  | w :: x :: ws' =>
    have hwne : w ≠ [] := hw w (by simp)
    simp only [justify_line, justifyJoin, ne_eq, List.append_eq_nil,
      List.append_assoc]
    intro h
    exact hwne h.1

theorem jpLoop_mem (width : Int) (jll : Bool) (total : Nat) :
    ∀ (lines : List (List Char)) (i : Nat) (l : List Char),
    l ∈ jpLoop width jll total i lines →
    ∃ line ∈ lines, l = joinSpaces (splitWords line) ∨
      l = justify_line (splitWords line) width := by
  intro lines
  induction lines with
  | nil => intro i l hl; simp [jpLoop] at hl
  | cons line rest ih =>
    intro i l hl
    simp only [jpLoop, List.mem_cons] at hl
    rcases hl with h | h
    · by_cases hcond : i = total - 1 ∧ jll = false
      · rw [if_pos hcond] at h
        exact ⟨line, by simp, Or.inl h⟩
      · rw [if_neg hcond] at h
        exact ⟨line, by simp, Or.inr h⟩
    · rcases ih (i + 1) l h with ⟨m, hm, hh⟩
      exact ⟨m, List.mem_cons_of_mem _ hm, hh⟩

theorem splitWords_eq_nil :
    ∀ s : List Char, splitWords s = [] → ∀ c ∈ s, isSpace c = true := by
  intro s
  induction s using splitWords.induct with
  | case1 => simp
  | case2 c hc => intro _ a ha; simp at ha; subst ha; exact hc
  | case3 c hc => intro h; simp [splitWords, hc] at h
  | case4 c d cs hc ih =>
    intro h a ha
    rw [splitWords_space_cons hc] at h
    rcases List.mem_cons.mp ha with rfl | ha
    · exact hc
    · exact ih h a ha
  | case5 c d cs hc hd ih =>
    simp only [Bool.not_eq_true] at hc
    intro h
    simp [splitWords, hc, hd] at h
  | case6 c d cs hc hd hnil ih =>
    simp only [Bool.not_eq_true] at hc hd
    exact absurd hnil (splitWords_ne_nil hd cs)
  | case7 c d cs hc hd w0 ws0 heq ih =>
    simp only [Bool.not_eq_true] at hc hd
    intro h
    simp [splitWords, hc, hd, heq] at h

theorem wrap_paragraph_ne_nil {p : List Char} {width : Int}
    (h : splitWords p ≠ []) : wrap_paragraph p width ≠ [] := by
  intro hcon
  apply h
  have : (wrapWords (splitWords p) width) = [] := by
    by_contra hne
    cases hw : wrapWords (splitWords p) width with
    | nil => exact hne hw
    | cons g gs =>
      have : wrap_paragraph p width = (g :: gs).map joinSpaces := by
        rw [wrap_paragraph, hw]
      simp [this] at hcon
  rw [← wrapWords_flatten (splitWords p) width, this]
  rfl

end TextFormatter

namespace TextFormatter

theorem getLast?_cons_of_ne_nil {α : Type} {a : α} {l : List α}
    (h : l ≠ []) : (a :: l).getLast? = l.getLast? := by
  cases l with
  | nil => exact absurd rfl h
  | cons b l' => exact List.getLast?_cons_cons

theorem head?_dropWhile_nonspace (l : List Char) (c : Char)
    (hc : (l.dropWhile isSpace).head? = some c) : isSpace c = false := by
  have h := List.head?_dropWhile_not isSpace l
  rw [hc] at h
  exact h

theorem getLast?_dropWhile (p : Char → Bool) (l : List Char)
    (h : l.dropWhile p ≠ []) : (l.dropWhile p).getLast? = l.getLast? := by
  rcases List.dropWhile_suffix p (l := l) with ⟨t, ht⟩
  conv_rhs => rw [← ht]
  rw [List.getLast?_append_of_ne_nil _ h]

theorem strip_head_nonspace (s : List Char) (c : Char)
    (hc : (strip s).head? = some c) : isSpace c = false := by
  unfold strip at hc
  rw [List.head?_reverse] at hc
  have hne : (s.dropWhile isSpace).reverse.dropWhile isSpace ≠ [] := by
    intro hcon
    rw [hcon] at hc
    simp at hc
  rw [getLast?_dropWhile isSpace _ hne, List.getLast?_reverse] at hc
  exact head?_dropWhile_nonspace s c hc

theorem strip_getLast_nonspace (s : List Char) (c : Char)
    (hc : (strip s).getLast? = some c) : isSpace c = false := by
  unfold strip at hc
  rw [List.getLast?_reverse] at hc
  exact head?_dropWhile_nonspace (s.dropWhile isSpace).reverse c hc

theorem rsGo_pieces_nonspace :
    ∀ (s acc run : List Char),
    (∃ c ∈ acc, isSpace c = false) →
    (s ≠ [] → ∀ c, s.getLast? = some c → isSpace c = false) →
    (s = [] → run = []) →
    ∀ p ∈ rsGo s acc run, ∃ c ∈ p, isSpace c = false := by
  intro s
  induction s with
  | nil =>
    intro acc run hacc _ hrn p hp
    have hrun : run = [] := hrn rfl
    subst hrun
    have hev : rsGo [] acc [] = [acc] := by simp [rsGo, countNL]
    rw [hev] at hp
    simp only [List.mem_singleton] at hp
    subst hp
    exact hacc
  | cons c cs ih =>
    intro acc run hacc hlast hrn p hp
    by_cases hc : isSpace c = true
    · have hcsne : cs ≠ [] := by
        intro hcon
        subst hcon
        have := hlast (by simp) c (by simp)
        rw [hc] at this
        exact Bool.true_eq_false.mp this
      rw [show rsGo (c :: cs) acc run = rsGo cs acc (run ++ [c]) from by
        simp [rsGo, hc]] at hp
      exact ih acc (run ++ [c]) hacc
        (fun _ c' hc' => hlast (by simp) c'
          (by rw [getLast?_cons_of_ne_nil hcsne]; exact hc'))
        (fun hcon => absurd hcon hcsne) p hp
    · by_cases hsep : 2 ≤ countNL run
      · rw [show rsGo (c :: cs) acc run =
          (acc ++ preNL run) :: rsGo cs (postNL run ++ [c]) [] from by
            simp [rsGo, hc, hsep]] at hp
        rcases List.mem_cons.mp hp with rfl | hp'
        · rcases hacc with ⟨a, ha, hans⟩
          exact ⟨a, List.mem_append_left _ ha, hans⟩
        · refine ih (postNL run ++ [c]) []
            ⟨c, by simp, by simpa using hc⟩ ?_ (fun _ => rfl) p hp'
          intro hne c' hc'
          exact hlast (by simp) c'
            (by rw [getLast?_cons_of_ne_nil hne]; exact hc')
      · rw [show rsGo (c :: cs) acc run =
          rsGo cs (acc ++ run ++ [c]) [] from by simp [rsGo, hc, hsep]] at hp
        refine ih (acc ++ run ++ [c]) []
          ⟨c, by simp, by simpa using hc⟩ ?_ (fun _ => rfl) p hp
        intro hne c' hc'
        exact hlast (by simp) c'
          (by rw [getLast?_cons_of_ne_nil hne]; exact hc')

theorem reSplitPara_pieces_nonspace (s : List Char) (hne : s ≠ [])
    (hh : ∀ c, s.head? = some c → isSpace c = false)
    (hl : ∀ c, s.getLast? = some c → isSpace c = false) :
    ∀ p ∈ reSplitPara s, ∃ c ∈ p, isSpace c = false := by
  cases s with
  | nil => exact absurd rfl hne
  | cons c₀ rest =>
    have hc₀ : isSpace c₀ = false := hh c₀ rfl
    have hstep : reSplitPara (c₀ :: rest) = rsGo rest [c₀] [] := by
      simp [reSplitPara, rsGo, countNL, hc₀]
    rw [hstep]
    refine rsGo_pieces_nonspace rest [c₀] [] ⟨c₀, by simp, hc₀⟩ ?_
      (fun _ => rfl)
    intro hrne c' hc'
    exact hl c' (by rw [getLast?_cons_of_ne_nil hrne]; exact hc')

end TextFormatter

namespace TextFormatter

theorem mem_of_getLast? {α : Type} {l : List α} {a : α}
    (h : l.getLast? = some a) : a ∈ l := by
  rw [List.getLast?_eq_head?_reverse] at h
  have := List.mem_of_mem_head? h
  simpa using this

theorem nonspace_ne_nl {c : Char} (h : isSpace c = false) : c ≠ '\n' := by
  intro hc
  subst hc
  exact absurd h (by decide)

theorem joinSpaces_ne_nil {g : List (List Char)} (hg : g ≠ [])
    (hw : ∀ w ∈ g, w ≠ []) : joinSpaces g ≠ [] := by
  cases g with
  | nil => exact absurd rfl hg
  | cons w rest => exact joinSep_ne_nil [' '] w rest (hw w (by simp))

theorem wrap_paragraph_line_good {p : List Char} {width : Int} :
    ∀ line ∈ wrap_paragraph p width, line ≠ [] ∧ ∀ c ∈ line, c ≠ '\n' := by
  intro line hline
  rcases wrap_paragraph_lines hline with ⟨g, _, rfl, _, hgne, hsan⟩
  refine ⟨joinSpaces_ne_nil hgne (fun w hw => (hsan w hw).1), ?_⟩
  intro c hc
  rcases mem_joinSep_single ' ' g c hc with rfl | ⟨w, hw, hcw⟩
  · decide
  · exact nonspace_ne_nl ((hsan w hw).2 c hcw)

theorem justify_paragraph_line_good {p : List Char} {width : Int}
    {jll : Bool} :
    ∀ l ∈ justify_paragraph p width jll, l ≠ [] ∧ ∀ c ∈ l, c ≠ '\n' := by
  intro l hl
  rcases jpLoop_mem width jll (wrap_paragraph p width).length
    (wrap_paragraph p width) 0 l hl with ⟨line, hline, hcase⟩
  rcases wrap_paragraph_lines hline with ⟨g, _, hjoin, hsplit, hgne, hsan⟩
  rcases hcase with rfl | rfl
  · rw [hsplit]
    refine ⟨joinSpaces_ne_nil hgne (fun w hw => (hsan w hw).1), ?_⟩
    intro c hc
    rcases mem_joinSep_single ' ' g c hc with rfl | ⟨w, hw, hcw⟩
    · decide
    · exact nonspace_ne_nl ((hsan w hw).2 c hcw)
  · rw [hsplit]
    refine ⟨justify_line_ne_nil g width hgne
      (fun w hw => (hsan w hw).1), ?_⟩
    intro c hc
    rcases mem_justify_line g width c hc with rfl | ⟨w, hw, hcw⟩
    · decide
    · exact nonspace_ne_nl ((hsan w hw).2 c hcw)

theorem paragraphBlocks_good (text : List Char) (width : Int)
    (justify jll : Bool) (hs : strip text ≠ []) :
    ∀ b ∈ paragraphBlocks text width justify jll,
      b ≠ [] ∧ ∀ l ∈ b, l ≠ [] ∧ ∀ c ∈ l, c ≠ '\n' := by
  intro b hb
  rcases List.mem_map.mp hb with ⟨p, hp, rfl⟩
  have hpn : ∃ c ∈ p, isSpace c = false :=
    reSplitPara_pieces_nonspace (strip text) hs
      (strip_head_nonspace text) (strip_getLast_nonspace text) p hp
  have hwp : splitWords p ≠ [] := by
    intro hcon
    rcases hpn with ⟨c, hcp, hcns⟩
    have := splitWords_eq_nil p hcon c hcp
    rw [hcns] at this
    exact Bool.false_ne_true this
  have hclean : splitWords (joinSpaces (splitWords p)) = splitWords p :=
    splitWords_joinSpaces _ (splitWords_sanitary p)
  have hwrapne : wrap_paragraph (joinSpaces (splitWords p)) width ≠ [] :=
    wrap_paragraph_ne_nil (by rw [hclean]; exact hwp)
  by_cases hj : justify = true
  · rw [if_pos hj]
    constructor
    · intro hcon
      apply hwrapne
      have hlen := jpLoop_length width jll
        (wrap_paragraph (joinSpaces (splitWords p)) width).length
        (wrap_paragraph (joinSpaces (splitWords p)) width) 0
      rw [show justify_paragraph (joinSpaces (splitWords p)) width jll =
        jpLoop width jll
          (wrap_paragraph (joinSpaces (splitWords p)) width).length 0
          (wrap_paragraph (joinSpaces (splitWords p)) width) from rfl] at hcon
      rw [hcon] at hlen
      exact List.length_eq_zero.mp hlen.symm
    · exact fun l hl => justify_paragraph_line_good l hl
  · rw [if_neg hj]
    exact ⟨hwrapne, fun l hl => wrap_paragraph_line_good l hl⟩

theorem splitlines_joinNL :
    ∀ b : List (List Char), (∀ l ∈ b, l ≠ [] ∧ ∀ c ∈ l, c ≠ '\n') →
    splitlines (joinSep ['\n'] b) = b := by
  intro b
  induction b with
  | nil => intro _; rfl
  | cons l rest ih =>
    intro hgood
    cases rest with
    | nil =>
      exact splitlines_no_nl l (fun c hc => (hgood l (by simp)).2 c hc)
        (hgood l (by simp)).1
    | cons x ls =>
      have hl := hgood l (by simp)
      have hrec := ih (fun m hm => hgood m (List.mem_cons_of_mem _ hm))
      have hjoin : joinSep ['\n'] (l :: x :: ls) =
          l ++ '\n' :: joinSep ['\n'] (x :: ls) := by
        simp [joinSep]
      rw [hjoin, splitlines_append_nl l _ hl.1
        (fun c hc => hl.2 c (mem_of_getLast? hc)), hrec,
        splitlines_no_nl l (fun c hc => hl.2 c hc) hl.1]
      rfl

theorem joinNL_getLast_ne_nl (b : List (List Char)) (hbne : b ≠ [])
    (hgood : ∀ l ∈ b, l ≠ [] ∧ ∀ c ∈ l, c ≠ '\n') :
    ∀ c, (joinSep ['\n'] b).getLast? = some c → c ≠ '\n' :=
  joinSep_getLast?_prop ['\n'] (fun c => c ≠ '\n') b hbne
    (fun l hl => (hgood l hl).1)
    (fun l hl c hc => (hgood l hl).2 c (mem_of_getLast? hc))

theorem splitlines_joinParas :
    ∀ blocks : List (List (List Char)),
    (∀ b ∈ blocks, b ≠ [] ∧ ∀ l ∈ b, l ≠ [] ∧ ∀ c ∈ l, c ≠ '\n') →
    splitlines (joinSep ['\n', '\n'] (blocks.map (joinSep ['\n']))) =
      List.intercalate [[]] blocks := by
  intro blocks
  induction blocks with
  | nil => intro _; rfl
  | cons b rest ih =>
    intro hgood
    cases rest with
    | nil =>
      simp only [List.map_cons, List.map_nil, joinSep]
      rw [splitlines_joinNL b (hgood b (by simp)).2]
      simp [List.intercalate]
    | cons b' bs =>
      have hb := hgood b (by simp)
      have hrec := ih (fun m hm => hgood m (List.mem_cons_of_mem _ hm))
      have hJne : joinSep ['\n'] b ≠ [] := by
        rcases b with _ | ⟨l, ls⟩
        · exact absurd rfl hb.1
        · exact joinSep_ne_nil ['\n'] l ls (hb.2 l (by simp)).1
      have hsplit1 : joinSep ['\n', '\n']
          ((b :: b' :: bs).map (joinSep ['\n'])) =
          joinSep ['\n'] b ++ '\n' :: ('\n' ::
            joinSep ['\n', '\n'] ((b' :: bs).map (joinSep ['\n']))) := by
        simp [joinSep]
      rw [hsplit1, splitlines_append_nl _ _ hJne
        (joinNL_getLast_ne_nl b hb.1 hb.2), splitlines_cons_nl, hrec,
        splitlines_joinNL b hb.2]
      rw [show List.intercalate [[]] (b :: b' :: bs) =
        b ++ [[]] ++ List.intercalate [[]] (b' :: bs) from by
          simp [List.intercalate, List.intersperse_cons_cons]]
      simp

end TextFormatter

namespace TextFormatter

/-- Claim C8: with two or more paragraphs, `format_text` joins the
formatted paragraph blocks with exactly one blank line (two newlines)
between consecutive blocks, and the endpoint's lines value is the
formatted string split on newlines — the blocks' lines in order with
an empty-string entry at each paragraph boundary, which is what
`List.intercalate` with a singleton empty line expresses. -/
theorem c8_paragraph_separation (req : FormatRequest)
    (h2 : 2 ≤ (reSplitPara (strip req.text)).length) :
    (format_endpoint req).1 = joinSep ['\n', '\n']
      ((paragraphBlocks req.text req.width req.justify
        req.justify_last_line).map (joinSep ['\n'])) ∧
    (format_endpoint req).2 = List.intercalate [[]]
      (paragraphBlocks req.text req.width req.justify
        req.justify_last_line) ∧
    2 ≤ (paragraphBlocks req.text req.width req.justify
      req.justify_last_line).length := by
  have hs : strip req.text ≠ [] := by
    intro hcon
    rw [hcon, show reSplitPara ([] : List Char) = [[]] from rfl] at h2
    simp at h2
  have h1 : (format_endpoint req).1 = joinSep ['\n', '\n']
      ((paragraphBlocks req.text req.width req.justify
        req.justify_last_line).map (joinSep ['\n'])) := by
    rw [show (format_endpoint req).1 =
      format_text req.text req.width req.justify req.justify_last_line
      from rfl]
    unfold paragraphBlocks
    rw [List.map_map]
    rfl
  refine ⟨h1, ?_, ?_⟩
  · rw [show (format_endpoint req).2 = splitlines
      (format_text req.text req.width req.justify req.justify_last_line)
      from rfl]
    rw [show format_text req.text req.width req.justify req.justify_last_line
      = joinSep ['\n', '\n'] ((paragraphBlocks req.text req.width req.justify
        req.justify_last_line).map (joinSep ['\n'])) from h1]
    exact splitlines_joinParas _ (paragraphBlocks_good req.text req.width
      req.justify req.justify_last_line hs)
  · rw [show (paragraphBlocks req.text req.width req.justify
      req.justify_last_line).length =
      (reSplitPara (strip req.text)).length from by
        unfold paragraphBlocks; rw [List.length_map]]
    exact h2

/-- Witness for claim C8 at the spec's Scenario 4 input. -/
theorem c8_paragraph_separation_witness :
    (2 ≤ (reSplitPara (strip "Para one here.\n\nPara two.".data)).length) ∧
    ((format_endpoint
        ⟨"Para one here.\n\nPara two.".data, 20, false, false⟩).1 =
      joinSep ['\n', '\n']
        ((paragraphBlocks "Para one here.\n\nPara two.".data 20 false
          false).map (joinSep ['\n'])) ∧
    (format_endpoint
        ⟨"Para one here.\n\nPara two.".data, 20, false, false⟩).2 =
      List.intercalate [[]]
        (paragraphBlocks "Para one here.\n\nPara two.".data 20 false false) ∧
    2 ≤ (paragraphBlocks "Para one here.\n\nPara two.".data 20 false
      false).length) :=
  ⟨by decide, c8_paragraph_separation
    ⟨"Para one here.\n\nPara two.".data, 20, false, false⟩ (by decide)⟩

end TextFormatter

namespace TextFormatter

theorem format_text_nil (width : Int) (justify jll : Bool) :
    format_text [] width justify jll = [] := by
  cases justify <;> rfl

theorem chain'_of_nonspace :
    ∀ l : List Char, (∀ c ∈ l, isSpace c = false) → noDoubleSpace l := by
  intro l
  induction l with
  | nil => intro _; exact List.chain'_nil
  | cons a l' ih =>
    intro h
    rw [noDoubleSpace, List.chain'_cons']
    refine ⟨?_, ih (fun c hc => h c (List.mem_cons_of_mem _ hc))⟩
    intro y _ hcon
    have ha := h a (by simp)
    rw [ha] at hcon
    exact Bool.false_ne_true hcon.1

theorem joinSep_good (sepc : Char) :
    ∀ ls : List (List Char), ls ≠ [] →
    (∀ l ∈ ls, l ≠ [] ∧ noDoubleSpace l ∧
      (∀ c, l.head? = some c → isSpace c = false) ∧
      (∀ c, l.getLast? = some c → isSpace c = false)) →
    joinSep [sepc] ls ≠ [] ∧ noDoubleSpace (joinSep [sepc] ls) ∧
    (∀ c, (joinSep [sepc] ls).head? = some c → isSpace c = false) ∧
    (∀ c, (joinSep [sepc] ls).getLast? = some c → isSpace c = false) := by
  intro ls
  induction ls with
  | nil => intro h; exact absurd rfl h
  | cons l rest ih =>
    intro _ hgood
    have hl := hgood l (by simp)
    cases rest with
    | nil => exact hl
    | cons x ls' =>
      have hrec := ih (by simp)
        (fun m hm => hgood m (List.mem_cons_of_mem _ hm))
      have hJne : joinSep [sepc] (x :: ls') ≠ [] := hrec.1
      have hshape : joinSep [sepc] (l :: x :: ls') =
          l ++ sepc :: joinSep [sepc] (x :: ls') := by
        simp [joinSep]
      refine ⟨?_, ?_, ?_, ?_⟩
      · rw [hshape]
        simp [hl.1]
      · rw [hshape, noDoubleSpace, List.chain'_append]
        refine ⟨hl.2.1, ?_, ?_⟩
        · rw [List.chain'_cons']
          refine ⟨?_, hrec.2.1⟩
          intro y hy hcon
          have := hrec.2.2.1 y hy
          rw [this] at hcon
          exact Bool.false_ne_true hcon.2
        · intro a ha y hy hcon
          have := hl.2.2.2 a ha
          rw [this] at hcon
          exact Bool.false_ne_true hcon.1
      · intro c hc
        rw [hshape, List.head?_append_of_ne_nil l hl.1] at hc
        exact hl.2.2.1 c hc
      · intro c hc
        rw [hshape, List.getLast?_append_of_ne_nil l (by simp),
          getLast?_cons_of_ne_nil hJne] at hc
        exact hrec.2.2.2 c hc

theorem strip_eq_self (s : List Char)
    (hh : ∀ c, s.head? = some c → isSpace c = false)
    (hl : ∀ c, s.getLast? = some c → isSpace c = false) :
    strip s = s := by
  have h1 : s.dropWhile isSpace = s := by
    cases s with
    | nil => rfl
    | cons a s' =>
      rw [List.dropWhile_cons, if_neg]
      rw [hh a rfl]
      exact Bool.false_ne_true
  have h2 : s.reverse.dropWhile isSpace = s.reverse := by
    cases hs : s.reverse with
    | nil => rfl
    | cons a r' =>
      rw [List.dropWhile_cons, if_neg]
      have ha : s.getLast? = some a := by
        rw [← List.head?_reverse, hs]
        rfl
      rw [hl a ha]
      exact Bool.false_ne_true
  unfold strip
  rw [h1, h2, List.reverse_reverse]

theorem countNL_le (run : List Char) : countNL run ≤ run.length := by
  unfold countNL
  exact List.length_filter_le _ run

theorem rsGo_noSep :
    ∀ (s run acc : List Char), run.length ≤ 1 →
    (∀ c ∈ run, isSpace c = true) →
    noDoubleSpace (run ++ s) →
    rsGo s acc run = [acc ++ run ++ s] := by
  intro s
  induction s with
  | nil =>
    intro run acc hlen _ _
    have hcnt : ¬2 ≤ countNL run := by
      have := countNL_le run
      omega
    simp [rsGo, hcnt]
  | cons c cs ih =>
    intro run acc hlen hrunsp hchain
    by_cases hc : isSpace c = true
    · have hrun : run = [] := by
        cases run with
        | nil => rfl
        | cons r rs =>
          have hrs : rs = [] := by
            cases rs with
            | nil => rfl
            | cons y ys => simp at hlen
          subst hrs
          exfalso
          have hch : List.Chain'
              (fun a b => ¬(isSpace a = true ∧ isSpace b = true))
              (r :: c :: cs) := by
            simpa [noDoubleSpace] using hchain
          exact (List.chain'_cons.mp hch).1 ⟨hrunsp r (by simp), hc⟩
      subst hrun
      rw [show rsGo (c :: cs) acc [] = rsGo cs acc ([] ++ [c]) from by
        simp [rsGo, hc]]
      rw [ih ([] ++ [c]) acc (by simp)
        (by intro x hx; simp at hx; subst hx; exact hc)
        (by simpa using hchain)]
      simp
    · have hcnt : ¬2 ≤ countNL run := by
        have := countNL_le run
        omega
      rw [show rsGo (c :: cs) acc run = rsGo cs (acc ++ run ++ [c]) [] from by
        simp [rsGo, hc, hcnt]]
      rw [ih [] (acc ++ run ++ [c]) (by simp) (by simp) ?_]
      · simp
      · show noDoubleSpace ([] ++ cs)
        have hsuf : cs <:+ run ++ c :: cs := ⟨run ++ [c], by simp⟩
        simpa [noDoubleSpace] using
          (List.Chain'.suffix (by simpa [noDoubleSpace] using hchain) hsuf)

theorem splitWords_joinSep_ws {sepc : Char} (hsep : isSpace sepc = true) :
    ∀ ls : List (List Char),
    splitWords (joinSep [sepc] ls) = (ls.map splitWords).flatten := by
  intro ls
  induction ls with
  | nil => rfl
  | cons l rest ih =>
    cases rest with
    | nil => simp [joinSep, splitWords]
    | cons x ls' =>
      have hshape : joinSep [sepc] (l :: x :: ls') =
          l ++ sepc :: joinSep [sepc] (x :: ls') := by
        simp [joinSep]
      rw [hshape, splitWords_append_space hsep, ih]
      simp

end TextFormatter

namespace TextFormatter

/-- Claim C9: wrap-only formatting is idempotent on single-paragraph
texts — re-formatting the output of `format_text` with justify off and
the same width reproduces that output exactly. -/
theorem c9_wrap_idempotent (t : List Char) (w : Int) (hw : 1 ≤ w)
    (hpara : (reSplitPara (strip t)).length = 1) :
    format_text (format_text t w false false) w false false =
      format_text t w false false := by
  obtain ⟨p, hp⟩ : ∃ p, reSplitPara (strip t) = [p] := by
    cases hps : reSplitPara (strip t) with
    | nil => rw [hps] at hpara; simp at hpara
    | cons q rest =>
      cases rest with
      | nil => exact ⟨q, rfl⟩
      | cons r rs => rw [hps] at hpara; simp at hpara
  have hout : format_text t w false false =
      joinSep ['\n'] (wrap_paragraph (joinSpaces (splitWords p)) w) := by
    simp only [format_text]
    rw [hp]
    simp [joinSep]
  have hsan : ∀ v ∈ splitWords p, v ≠ [] ∧ ∀ c ∈ v, isSpace c = false :=
    fun v hv => splitWords_sanitary p v hv
  have hclean : splitWords (joinSpaces (splitWords p)) = splitWords p :=
    splitWords_joinSpaces _ hsan
  have hlines : wrap_paragraph (joinSpaces (splitWords p)) w =
      (wrapWords (splitWords p) w).map joinSpaces := by
    rw [wrap_paragraph, hclean]
  by_cases hwsnil : splitWords p = []
  · have hempty : wrap_paragraph (joinSpaces (splitWords p)) w = [] := by
      rw [hlines, hwsnil]
      rfl
    rw [hout, hempty, show joinSep ['\n'] ([] : List (List Char)) = []
      from rfl]
    exact format_text_nil w false false
  · have hgne : wrapWords (splitWords p) w ≠ [] := by
      intro hcon
      apply hwsnil
      rw [← wrapWords_flatten (splitWords p) w, hcon]
      rfl
    have hggood : ∀ g ∈ wrapWords (splitWords p) w,
        g ≠ [] ∧ ∀ v ∈ g, v ≠ [] ∧ ∀ c ∈ v, isSpace c = false := by
      intro g hg
      refine ⟨(wrapWords_good (splitWords p) w
        (fun v hv => (hsan v hv).1) g hg).1, ?_⟩
      intro v hv
      exact hsan v (wrapWords_mem (splitWords p) w hg v hv)
    have hlinesgood : ∀ l ∈ (wrapWords (splitWords p) w).map joinSpaces,
        l ≠ [] ∧ noDoubleSpace l ∧
        (∀ c, l.head? = some c → isSpace c = false) ∧
        (∀ c, l.getLast? = some c → isSpace c = false) := by
      intro l hl
      rcases List.mem_map.mp hl with ⟨g, hg, rfl⟩
      have hgg := hggood g hg
      exact joinSep_good ' ' g hgg.1 (fun v hv =>
        ⟨(hgg.2 v hv).1, chain'_of_nonspace v (hgg.2 v hv).2,
          fun c hc => (hgg.2 v hv).2 c (List.mem_of_mem_head? hc),
          fun c hc => (hgg.2 v hv).2 c (mem_of_getLast? hc)⟩)
    have houtgood := joinSep_good '\n'
      ((wrapWords (splitWords p) w).map joinSpaces)
      (by simpa using hgne) hlinesgood
    have hstripout : strip (joinSep ['\n']
        ((wrapWords (splitWords p) w).map joinSpaces)) =
        joinSep ['\n'] ((wrapWords (splitWords p) w).map joinSpaces) :=
      strip_eq_self _ houtgood.2.2.1 houtgood.2.2.2
    have hresplit : reSplitPara (joinSep ['\n']
        ((wrapWords (splitWords p) w).map joinSpaces)) =
        [joinSep ['\n'] ((wrapWords (splitWords p) w).map joinSpaces)] := by
      unfold reSplitPara
      have := rsGo_noSep (joinSep ['\n']
        ((wrapWords (splitWords p) w).map joinSpaces)) [] []
        (by simp) (by simp) (by simpa using houtgood.2.1)
      simpa using this
    have hswout : splitWords (joinSep ['\n']
        ((wrapWords (splitWords p) w).map joinSpaces)) = splitWords p := by
      rw [splitWords_joinSep_ws (by decide), List.map_map]
      have hid : (wrapWords (splitWords p) w).map
          (splitWords ∘ joinSpaces) =
          (wrapWords (splitWords p) w).map id :=
        List.map_congr_left (fun g hg =>
          splitWords_joinSpaces g (hggood g hg).2)
      rw [hid, List.map_id]
      exact wrapWords_flatten (splitWords p) w
    rw [hout, hlines]
    simp only [format_text]
    rw [hstripout, hresplit]
    simp only [List.map_cons, List.map_nil, Bool.false_eq_true, if_false,
      reduceIte]
    rw [show ∀ x : List Char, joinSep ['\n', '\n'] [x] = x
      from fun x => rfl]
    rw [hswout, wrap_paragraph, hclean]

/-- Witness for claim C9 at a two-line wrap. -/
theorem c9_wrap_idempotent_witness :
    ((1 : Int) ≤ 7) ∧
    ((reSplitPara (strip "aaa bbb ccc ddd".data)).length = 1) ∧
    format_text (format_text "aaa bbb ccc ddd".data 7 false false) 7
        false false =
      format_text "aaa bbb ccc ddd".data 7 false false :=
  ⟨by decide, by decide,
    c9_wrap_idempotent "aaa bbb ccc ddd".data 7 (by decide) (by decide)⟩

end TextFormatter
